import Mathlib

set_option maxRecDepth 1000000
set_option maxHeartbeats 1000000
set_option exponentiation.threshold 1024

/-!
Verification of the SHA-256 implementation in `src/python/main.py`.

Bytes are modelled as `List Nat` whose entries are `< 256`; Python's
unbounded `int` is `Nat`.  The Python global list `H0` is mutated by
`sha256_hash_computation` (the statement `H = H0` aliases the list), so the
hash computation is modelled as a state transformer on the contents of the
global: it returns both the digest and the contents of the global after the
call.  `int.to_bytes` raises `OverflowError` when the value does not fit,
so `pad_message` (the one call site where the value could in principle not
fit) returns an `Option`.
-/

namespace Sha256

def WORD_MASK : Nat := 0xFFFFFFFF

/-- `rotr` from main.py lines 18-26. -/
def rotr (n x : Nat) : Nat := ((x >>> n) &&& WORD_MASK) ||| ((x <<< (32 - n)) &&& WORD_MASK)

/-- `shr` from main.py lines 28-36. -/
def shr (n x : Nat) : Nat := (x >>> n) &&& WORD_MASK

/-- `ch` from main.py lines 39-46.  On non-negative Python ints,
`~x & z` clears in `z` the bits set in `x`, which is `z ^^^ (z &&& x)`. -/
def ch (x y z : Nat) : Nat := ((x &&& y) ^^^ (z ^^^ (z &&& x))) &&& WORD_MASK

/-- `maj` from main.py lines 48-55. -/
def maj (x y z : Nat) : Nat := ((x &&& y) ^^^ (x &&& z) ^^^ (y &&& z)) &&& WORD_MASK

/-- `big_sigma_0` from main.py lines 57-62. -/
def big_sigma_0 (x : Nat) : Nat := (rotr 2 x ^^^ rotr 13 x ^^^ rotr 22 x) &&& WORD_MASK

/-- `big_sigma_1` from main.py lines 64-69. -/
def big_sigma_1 (x : Nat) : Nat := (rotr 6 x ^^^ rotr 11 x ^^^ rotr 25 x) &&& WORD_MASK

/-- `sigma_0` from main.py lines 71-76. -/
def sigma_0 (x : Nat) : Nat := (rotr 7 x ^^^ rotr 18 x ^^^ shr 3 x) &&& WORD_MASK

/-- `sigma_1` from main.py lines 78-83. -/
def sigma_1 (x : Nat) : Nat := (rotr 17 x ^^^ rotr 19 x ^^^ shr 10 x) &&& WORD_MASK

/-- The round-constant table `K` from main.py lines 88-96. -/
def K : List Nat := [
  0x428A2F98, 0x71374491, 0xB5C0FBCF, 0xE9B5DBA5,
  0x3956C25B, 0x59F111F1, 0x923F82A4, 0xAB1C5ED5,
  0xD807AA98, 0x12835B01, 0x243185BE, 0x550C7DC3,
  0x72BE5D74, 0x80DEB1FE, 0x9BDC06A7, 0xC19BF174,
  0xE49B69C1, 0xEFBE4786, 0x0FC19DC6, 0x240CA1CC,
  0x2DE92C6F, 0x4A7484AA, 0x5CB0A9DC, 0x76F988DA,
  0x983E5152, 0xA831C66D, 0xB00327C8, 0xBF597FC7,
  0xC6E00BF3, 0xD5A79147, 0x06CA6351, 0x14292967,
  0x27B70A85, 0x2E1B2138, 0x4D2C6DFC, 0x53380D13,
  0x650A7354, 0x766A0ABB, 0x81C2C92E, 0x92722C85,
  0xA2BFE8A1, 0xA81A664B, 0xC24B8B70, 0xC76C51A3,
  0xD192E819, 0xD6990624, 0xF40E3585, 0x106AA070,
  0x19A4C116, 0x1E376C08, 0x2748774C, 0x34B0BCB5,
  0x391C0CB3, 0x4ED8AA4A, 0x5B9CCA4F, 0x682E6FF3,
  0x748F82EE, 0x78A5636F, 0x84C87814, 0x8CC70208,
  0x90BEFFFA, 0xA4506CEB, 0xBEF9A3F7, 0xC67178F2]

/-- The initial hash value `H0` from main.py lines 146-155. -/
def H0 : List Nat := [
  0x6A09E667, 0xBB67AE85, 0x3C6EF372, 0xA54FF53A,
  0x510E527F, 0x9B05688C, 0x1F83D9AB, 0x5BE0CD19]

/-- Python `int.from_bytes(bs, 'big')`. -/
def fromBytesBE (bs : List Nat) : Nat := bs.foldl (fun acc b => acc * 256 + b) 0

/-- Python `v.to_bytes(n, 'big')` (truncating; call sites guard the
`OverflowError` case where needed). -/
def toBytesBE (v : Nat) : Nat → List Nat
  | 0 => []
  | n + 1 => (v / 256 ^ n % 256) :: toBytesBE v n

/-- `k = (448 - (l+1)) % BLOCK_SIZE` from main.py line 114 (Python `%` on a
negative dividend and positive divisor is Euclidean, like `Int.emod`). -/
def klen (l : Nat) : Nat := (((448 : Int) - ((l : Int) + 1)) % 512).toNat

/-- The integer value built by `pad_message`, main.py lines 118-120. -/
def padVal (M : List Nat) : Nat :=
  ((fromBytesBE M) <<< (klen (M.length * 8) + 1 + 64)) |||
    (1 <<< (klen (M.length * 8) + 64)) ||| (M.length * 8)

/-- `msglen = k + l + 1 + 448` from main.py line 122 (in bits). -/
def padMsgLen (M : List Nat) : Nat := klen (M.length * 8) + M.length * 8 + 1 + 448

/-- The byte string `pad_message` returns when `to_bytes` succeeds. -/
def pad_bytes (M : List Nat) : List Nat := toBytesBE (padVal M) (padMsgLen M / 8)

/-- `pad_message` from main.py lines 103-123; `none` models the
`OverflowError` that `to_bytes` would raise if the value did not fit. -/
def pad_message (M : List Nat) : Option (List Nat) :=
  if padVal M < 256 ^ (padMsgLen M / 8) then some (pad_bytes M) else none

/-- The loop of `parse_msg_blocks`, main.py lines 137-140: each iteration
takes the low 512 bits as a 64-byte block, prepends it, and shifts. -/
def parseLoop : Nat → Nat → List (List Nat)
  | 0, _ => []
  | n + 1, v => parseLoop n (v >>> 512) ++ [toBytesBE (v &&& (2 ^ 512 - 1)) 64]

/-- `parse_msg_blocks` from main.py lines 125-142. -/
def parse_msg_blocks (padded : List Nat) : List (List Nat) :=
  parseLoop (padded.length * 8 / 512) (fromBytesBE padded)

/-- `preprocess_msg` from main.py lines 164-173. -/
def preprocess_msg (M : List Nat) : Option (List (List Nat)) :=
  (pad_message M).map parse_msg_blocks

/-- The message-schedule loop of main.py lines 183-191 after `t` iterations:
the list `W` built so far. -/
def schedRec (Mi : Nat) : Nat → List Nat
  | 0 => []
  | t + 1 =>
    let Wp := schedRec Mi t
    Wp ++ [if t < 16 then (Mi >>> ((15 - t) * 32)) &&& WORD_MASK
           else ((sigma_1 (Wp.getD (t - 2) 0) + (Wp.getD (t - 7) 0) % 2 ^ 32) +
                 (sigma_0 (Wp.getD (t - 15) 0) + (Wp.getD (t - 16) 0) % 2 ^ 32)) % 2 ^ 32]

/-- The full 64-entry message schedule `W` of a block value `Mi`. -/
def Wsched (Mi : Nat) : List Nat := schedRec Mi 64

/-- `W[t]` for a block value `Mi`. -/
def Wt (Mi t : Nat) : Nat := (Wsched Mi).getD t 0

/-- The eight working variables `a`..`h` of main.py lines 194-201. -/
structure Regs where
  a : Nat
  b : Nat
  c : Nat
  d : Nat
  e : Nat
  f : Nat
  g : Nat
  h : Nat

/-- One round of the compression loop, main.py lines 203-213. -/
def roundStep (Kt Wtv : Nat) (s : Regs) : Regs :=
  let T1 := (s.h + big_sigma_1 s.e + ch s.e s.f s.g + Kt + Wtv) % 2 ^ 32
  let T2 := (big_sigma_0 s.a + maj s.a s.b s.c) % 2 ^ 32
  ⟨(T1 + T2) % 2 ^ 32, s.a, s.b, s.c, (s.d + T1) % 2 ^ 32, s.e, s.f, s.g⟩

/-- The per-block body of `sha256_hash_computation`, main.py lines 181-222:
schedule expansion, 64 rounds from the current hash state, then the
in-place state update.  Returns the new contents of `H`. -/
def processBlock (H : List Nat) (blk : List Nat) : List Nat :=
  let Mi := fromBytesBE blk
  let s0 : Regs := ⟨H.getD 0 0, H.getD 1 0, H.getD 2 0, H.getD 3 0,
                    H.getD 4 0, H.getD 5 0, H.getD 6 0, H.getD 7 0⟩
  let sf := (List.range 64).foldl (fun s t => roundStep (K.getD t 0) (Wt Mi t) s) s0
  [(sf.a + H.getD 0 0) % 2 ^ 32, (sf.b + H.getD 1 0) % 2 ^ 32,
   (sf.c + H.getD 2 0) % 2 ^ 32, (sf.d + H.getD 3 0) % 2 ^ 32,
   (sf.e + H.getD 4 0) % 2 ^ 32, (sf.f + H.getD 5 0) % 2 ^ 32,
   (sf.g + H.getD 6 0) % 2 ^ 32, (sf.h + H.getD 7 0) % 2 ^ 32]

/-- The digest concatenation of main.py lines 225-232. -/
def digestOf (H : List Nat) : Nat :=
  (H.getD 0 0 <<< (32 * 7)) ||| (H.getD 1 0 <<< (32 * 6)) ||| (H.getD 2 0 <<< (32 * 5)) |||
    (H.getD 3 0 <<< (32 * 4)) ||| (H.getD 4 0 <<< (32 * 3)) ||| (H.getD 5 0 <<< (32 * 2)) |||
    (H.getD 6 0 <<< (32 * 1)) ||| H.getD 7 0

/-- `sha256_hash_computation` from main.py lines 175-234.  The parameter `H`
is the contents of the global list `H0` at call time; because of the
aliasing assignment `H = H0` on line 179 the function mutates that global,
so the model returns the digest together with the global's new contents. -/
def sha256_hash_computation (blocks : List (List Nat)) (H : List Nat) : Nat × List Nat :=
  let Hf := blocks.foldl processBlock H
  (digestOf Hf, Hf)

/-- `my_sha256` from main.py lines 236-241, as a transformer of the global
`H0` state: input state, message, output (digest, new state). -/
def my_sha256_run (H : List Nat) (msg : List Nat) : Option (Nat × List Nat) :=
  (preprocess_msg msg).map (fun blocks => sha256_hash_computation blocks H)

/-- `my_sha256` called in a fresh process, where the global `H0` still holds
its initial values. -/
def my_sha256 (msg : List Nat) : Option Nat :=
  (my_sha256_run H0 msg).map Prod.fst

/-! ### Byte-string conversion lemmas -/

theorem toBytesBE_length (v n : Nat) : (toBytesBE v n).length = n := by
  induction n with
  | zero => rfl
  | succ n ih => simp [toBytesBE, ih]

theorem toBytesBE_mod (v n : Nat) : toBytesBE (v % 256 ^ n) n = toBytesBE v n := by
  induction n generalizing v with
  | zero => rfl
  | succ n ih =>
    simp only [toBytesBE]
    have h1 : v % 256 ^ (n + 1) / 256 ^ n % 256 = v / 256 ^ n % 256 := by
      rw [pow_succ, Nat.mod_mul_right_div_self, Nat.mod_mod_of_dvd _ (dvd_refl 256)]
    have h2 : toBytesBE (v % 256 ^ (n + 1)) n = toBytesBE v n := by
      rw [← ih (v % 256 ^ (n + 1)), Nat.mod_mod_of_dvd _ (pow_dvd_pow 256 (Nat.le_succ n)), ih]
    rw [h1, h2]

theorem toBytesBE_split (v m n : Nat) :
    toBytesBE v (m + n) = toBytesBE (v / 256 ^ n) m ++ toBytesBE v n := by
  induction m with
  | zero => simp [toBytesBE]
  | succ m ih =>
    have e : m + 1 + n = (m + n) + 1 := by omega
    rw [e]
    simp only [toBytesBE, List.cons_append]
    rw [ih, Nat.div_div_eq_div_mul, ← pow_add, Nat.add_comm n m]

theorem toBytesBE_zero_val (n : Nat) : toBytesBE 0 n = List.replicate n 0 := by
  induction n with
  | zero => rfl
  | succ n ih => simp [toBytesBE, ih, List.replicate_succ]

theorem toBytesBE_of_lt (m : Nat) {v n : Nat} (h : v < 256 ^ n) :
    toBytesBE v (m + n) = List.replicate m 0 ++ toBytesBE v n := by
  rw [toBytesBE_split, Nat.div_eq_of_lt h, toBytesBE_zero_val]

theorem fromBytesBE_foldl (xs : List Nat) (a : Nat) :
    xs.foldl (fun acc b => acc * 256 + b) a = a * 256 ^ xs.length + fromBytesBE xs := by
  induction xs generalizing a with
  | nil => simp [fromBytesBE]
  | cons x xs ih =>
    simp only [List.foldl_cons, List.length_cons, fromBytesBE, Nat.zero_mul, Nat.zero_add]
    rw [ih (a * 256 + x), ih x]
    ring

theorem fromBytesBE_cons (x : Nat) (xs : List Nat) :
    fromBytesBE (x :: xs) = x * 256 ^ xs.length + fromBytesBE xs := by
  show (x :: xs).foldl (fun acc b => acc * 256 + b) 0 = _
  simp only [List.foldl_cons]
  rw [fromBytesBE_foldl]
  ring

theorem fromBytesBE_lt {xs : List Nat} (h : ∀ b ∈ xs, b < 256) :
    fromBytesBE xs < 256 ^ xs.length := by
  induction xs with
  | nil => simp [fromBytesBE]
  | cons x xs ih =>
    rw [fromBytesBE_cons]
    have hx : x < 256 := h x (by simp)
    have hxs := ih (fun b hb => h b (by simp [hb]))
    calc x * 256 ^ xs.length + fromBytesBE xs
        < x * 256 ^ xs.length + 256 ^ xs.length := by omega
      _ = (x + 1) * 256 ^ xs.length := by ring
      _ ≤ 256 * 256 ^ xs.length := Nat.mul_le_mul_right _ (by omega)
      _ = 256 ^ (x :: xs).length := by rw [List.length_cons, pow_succ]; ring

theorem mod_pow_succ_256 (v n : Nat) :
    v % 256 ^ (n + 1) = v / 256 ^ n % 256 * 256 ^ n + v % 256 ^ n := by
  rw [pow_succ, Nat.mod_mul]
  ring

theorem fromBytesBE_toBytesBE (v n : Nat) :
    fromBytesBE (toBytesBE v n) = v % 256 ^ n := by
  induction n with
  | zero => simp [toBytesBE, fromBytesBE, Nat.mod_one]
  | succ n ih =>
    simp only [toBytesBE]
    rw [fromBytesBE_cons, toBytesBE_length, ih, mod_pow_succ_256]

theorem toBytesBE_fromBytesBE {xs : List Nat} (h : ∀ b ∈ xs, b < 256) :
    toBytesBE (fromBytesBE xs) xs.length = xs := by
  induction xs with
  | nil => rfl
  | cons x xs ih =>
    have hx : x < 256 := h x (by simp)
    have hxs : ∀ b ∈ xs, b < 256 := fun b hb => h b (by simp [hb])
    have hlt := fromBytesBE_lt hxs
    simp only [List.length_cons, toBytesBE, fromBytesBE_cons]
    have h1 : (x * 256 ^ xs.length + fromBytesBE xs) / 256 ^ xs.length % 256 = x := by
      have e : x * 256 ^ xs.length + fromBytesBE xs
          = 256 ^ xs.length * x + fromBytesBE xs := by ring
      rw [e, Nat.mul_add_div (by positivity), Nat.div_eq_of_lt hlt, Nat.add_zero,
        Nat.mod_eq_of_lt hx]
    have h2 : toBytesBE (x * 256 ^ xs.length + fromBytesBE xs) xs.length = xs := by
      rw [← toBytesBE_mod]
      have e : x * 256 ^ xs.length + fromBytesBE xs
          = 256 ^ xs.length * x + fromBytesBE xs := by ring
      rw [e, Nat.mul_add_mod, Nat.mod_eq_of_lt hlt, ih hxs]
    rw [h1, h2]

/-! ### Block-parser lemmas -/

theorem parseLoop_length (n : Nat) : ∀ v, (parseLoop n v).length = n := by
  induction n with
  | zero => intro v; rfl
  | succ n ih => intro v; simp [parseLoop, ih]

theorem parseLoop_blocks_length (n : Nat) :
    ∀ v, ∀ blk ∈ parseLoop n v, blk.length = 64 := by
  induction n with
  | zero => intro v blk hblk; simp [parseLoop] at hblk
  | succ n ih =>
    intro v blk hblk
    simp only [parseLoop, List.mem_append, List.mem_singleton] at hblk
    rcases hblk with h | h
    · exact ih _ blk h
    · rw [h, toBytesBE_length]

theorem pow_256_64 : (256 : Nat) ^ 64 = 2 ^ 512 := by
  rw [show (256 : Nat) = 2 ^ 8 from by norm_num, ← pow_mul]

theorem parseLoop_flatten (n : Nat) :
    ∀ v, (parseLoop n v).flatten = toBytesBE (v % 2 ^ (512 * n)) (64 * n) := by
  induction n with
  | zero => intro v; rfl
  | succ n ih =>
    intro v
    simp only [parseLoop, List.flatten_append, ih, List.flatten_cons, List.flatten_nil,
      List.append_nil]
    have e1 : 64 * (n + 1) = 64 * n + 64 := by ring
    have e2 : (2 : Nat) ^ (512 * (n + 1)) = 2 ^ 512 * 2 ^ (512 * n) := by
      rw [← pow_add]; congr 1; ring
    rw [e1, toBytesBE_split, e2]
    have h1 : v % (2 ^ 512 * 2 ^ (512 * n)) / 256 ^ 64 = v >>> 512 % 2 ^ (512 * n) := by
      rw [pow_256_64, Nat.mod_mul_right_div_self, Nat.shiftRight_eq_div_pow]
    have h2 : toBytesBE (v % (2 ^ 512 * 2 ^ (512 * n))) 64
        = toBytesBE (v &&& (2 ^ 512 - 1)) 64 := by
      rw [Nat.and_pow_two_sub_one_eq_mod, ← toBytesBE_mod (v % (2 ^ 512 * 2 ^ (512 * n))),
        pow_256_64, Nat.mod_mod_of_dvd _ (Dvd.intro _ rfl), ← pow_256_64, toBytesBE_mod]
    rw [h1, h2]

/-! ### Padder arithmetic lemmas -/

theorem klen_lt (l : Nat) : klen l < 512 := by
  unfold klen; omega

theorem klen_eq (l : Nat) : (l + 1 + klen l) % 512 = 448 := by
  unfold klen; omega

theorem klen_mod8 (l : Nat) (h : l % 8 = 0) : klen l % 8 = 7 := by
  unfold klen; omega

theorem padVal_eq (M : List Nat) (hl : M.length * 8 < 2 ^ 64) :
    padVal M = fromBytesBE M * 2 ^ (klen (M.length * 8) + 65) +
      2 ^ (klen (M.length * 8) + 64) + M.length * 8 := by
  unfold padVal
  have e1 : klen (M.length * 8) + 1 + 64 = klen (M.length * 8) + 65 := by omega
  rw [Nat.shiftLeft_eq, Nat.shiftLeft_eq, one_mul, e1,
    Nat.mul_comm (fromBytesBE M) (2 ^ (klen (M.length * 8) + 65))]
  have h1 : (2 : Nat) ^ (klen (M.length * 8) + 64) < 2 ^ (klen (M.length * 8) + 65) :=
    Nat.pow_lt_pow_right (by norm_num) (by omega)
  rw [← Nat.mul_add_lt_is_or h1 (fromBytesBE M)]
  have e2 : 2 ^ (klen (M.length * 8) + 65) * fromBytesBE M + 2 ^ (klen (M.length * 8) + 64)
      = 2 ^ (klen (M.length * 8) + 64) * (2 * fromBytesBE M + 1) := by ring
  have h2 : M.length * 8 < 2 ^ (klen (M.length * 8) + 64) :=
    lt_of_lt_of_le hl (Nat.pow_le_pow_right (by norm_num) (by omega))
  rw [e2, ← Nat.mul_add_lt_is_or h2 (2 * fromBytesBE M + 1)]

theorem padVal_lt (M : List Nat) (hM : ∀ b ∈ M, b < 256) :
    padVal M < 2 ^ (M.length * 8 + klen (M.length * 8) + 65) := by
  unfold padVal
  have hM' : fromBytesBE M < 2 ^ (M.length * 8) := by
    have := fromBytesBE_lt hM
    rwa [show (256 : Nat) = 2 ^ 8 from by norm_num, ← pow_mul, Nat.mul_comm 8 M.length] at this
  apply Nat.or_lt_two_pow (Nat.or_lt_two_pow _ _) _
  · rw [Nat.shiftLeft_eq]
    calc fromBytesBE M * 2 ^ (klen (M.length * 8) + 1 + 64)
        < 2 ^ (M.length * 8) * 2 ^ (klen (M.length * 8) + 1 + 64) :=
          (Nat.mul_lt_mul_right (Nat.two_pow_pos _)).mpr hM'
      _ = 2 ^ (M.length * 8 + klen (M.length * 8) + 65) := by rw [← pow_add]; congr 1
  · rw [Nat.shiftLeft_eq, one_mul]
    exact Nat.pow_lt_pow_right (by norm_num) (by omega)
  · calc M.length * 8 < 2 ^ (M.length * 8) := Nat.lt_two_pow _
      _ ≤ 2 ^ (M.length * 8 + klen (M.length * 8) + 65) :=
          Nat.pow_le_pow_right (by norm_num) (by omega)

theorem padMsgLen_mod8 (M : List Nat) : padMsgLen M % 8 = 0 := by
  have := klen_mod8 (M.length * 8) (by omega)
  unfold padMsgLen
  omega

theorem padVal_lt_pow (M : List Nat) (hM : ∀ b ∈ M, b < 256) :
    padVal M < 256 ^ (padMsgLen M / 8) := by
  have h8 := padMsgLen_mod8 M
  calc padVal M < 2 ^ (M.length * 8 + klen (M.length * 8) + 65) := padVal_lt M hM
    _ ≤ 2 ^ (8 * (padMsgLen M / 8)) := by
        apply Nat.pow_le_pow_right (by norm_num)
        unfold padMsgLen at *
        omega
    _ = 256 ^ (padMsgLen M / 8) := by
        rw [show (256 : Nat) = 2 ^ 8 from by norm_num, ← pow_mul]

theorem pad_message_eq (M : List Nat) (hM : ∀ b ∈ M, b < 256) :
    pad_message M = some (pad_bytes M) := by
  unfold pad_message
  rw [if_pos (padVal_lt_pow M hM)]

theorem pad_bytes_length (M : List Nat) : (pad_bytes M).length = padMsgLen M / 8 :=
  toBytesBE_length _ _

theorem fromBytesBE_pad_bytes (M : List Nat) (hM : ∀ b ∈ M, b < 256) :
    fromBytesBE (pad_bytes M) = padVal M := by
  unfold pad_bytes
  rw [fromBytesBE_toBytesBE, Nat.mod_eq_of_lt (padVal_lt_pow M hM)]

/-! ### FIPS padding decomposition -/

/-- Modelled from the spec, §4.1: the FIPS 180-4 padded message — the
original message bits, a single `1` bit, `k` zero bits, then the 64-bit
big-endian encoding of `l` — rendered at byte level: for a byte-aligned
message `k % 8 = 7`, so the `1` bit and the first 7 zero bits form the byte
`0x80`, followed by `(k - 7) / 8` zero bytes and the 8 length bytes. -/
def fipsPaddedMsg (M : List Nat) : List Nat :=
  M ++ 128 :: (List.replicate ((klen (M.length * 8) - 7) / 8) 0 ++ toBytesBE (M.length * 8) 8)

theorem toBytesBE_pad_decomp (M : List Nat) (k z : Nat) (hM : ∀ b ∈ M, b < 256)
    (hl : M.length * 8 < 2 ^ 64) (hkz : k = 8 * z + 7) :
    toBytesBE (fromBytesBE M * 2 ^ (k + 65) + 2 ^ (k + 64) + M.length * 8) (M.length + (z + 9))
      = M ++ 128 :: (List.replicate z 0 ++ toBytesBE (M.length * 8) 8) := by
  have hp9 : (256 : Nat) ^ (z + 9) = 2 ^ (k + 65) := by
    rw [show (256 : Nat) = 2 ^ 8 from by norm_num, ← pow_mul]
    congr 1
    omega
  have hp8 : (256 : Nat) ^ (z + 8) = 2 ^ (k + 57) := by
    rw [show (256 : Nat) = 2 ^ 8 from by norm_num, ← pow_mul]
    congr 1
    omega
  have hl64 : M.length * 8 < 2 ^ (k + 64) :=
    lt_of_lt_of_le hl (Nat.pow_le_pow_right (by norm_num) (by omega))
  have hl57 : M.length * 8 < 2 ^ (k + 57) :=
    lt_of_lt_of_le hl (Nat.pow_le_pow_right (by norm_num) (by omega))
  have hR : 2 ^ (k + 64) + M.length * 8 < 2 ^ (k + 65) := by
    have h2 : (2 : Nat) ^ (k + 65) = 2 ^ (k + 64) * 2 := pow_succ 2 (k + 64)
    omega
  have eV : fromBytesBE M * 2 ^ (k + 65) + 2 ^ (k + 64) + M.length * 8
      = 2 ^ (k + 65) * fromBytesBE M + (2 ^ (k + 64) + M.length * 8) := by ring
  rw [toBytesBE_split]
  have hVdiv : (fromBytesBE M * 2 ^ (k + 65) + 2 ^ (k + 64) + M.length * 8) / 256 ^ (z + 9)
      = fromBytesBE M := by
    rw [hp9, eV, Nat.mul_add_div (Nat.two_pow_pos _), Nat.div_eq_of_lt hR, Nat.add_zero]
  have hVmod : toBytesBE (fromBytesBE M * 2 ^ (k + 65) + 2 ^ (k + 64) + M.length * 8) (z + 9)
      = toBytesBE (2 ^ (k + 64) + M.length * 8) (z + 9) := by
    rw [← toBytesBE_mod (fromBytesBE M * 2 ^ (k + 65) + 2 ^ (k + 64) + M.length * 8), hp9, eV,
      Nat.mul_add_mod, Nat.mod_eq_of_lt hR]
  rw [hVdiv, hVmod, toBytesBE_fromBytesBE hM]
  have eR : (2 : Nat) ^ (k + 64) + M.length * 8 = 2 ^ (k + 57) * 2 ^ 7 + M.length * 8 := by
    rw [← pow_add]
  have hz9 : z + 9 = 1 + (z + 8) := by omega
  rw [hz9, toBytesBE_split]
  have hRdiv : (2 ^ (k + 64) + M.length * 8) / 256 ^ (z + 8) = 128 := by
    rw [hp8, eR, Nat.mul_add_div (Nat.two_pow_pos _), Nat.div_eq_of_lt hl57, Nat.add_zero]
    norm_num
  have hRmod : toBytesBE (2 ^ (k + 64) + M.length * 8) (z + 8)
      = toBytesBE (M.length * 8) (z + 8) := by
    rw [← toBytesBE_mod (2 ^ (k + 64) + M.length * 8), hp8, eR, Nat.mul_add_mod,
      Nat.mod_eq_of_lt hl57]
  rw [hRdiv, hRmod]
  have hsplit8 : toBytesBE (M.length * 8) (z + 8) =
      List.replicate z 0 ++ toBytesBE (M.length * 8) 8 := by
    apply toBytesBE_of_lt
    calc M.length * 8 < 2 ^ 64 := hl
      _ = 256 ^ 8 := by norm_num
  rw [hsplit8]
  have h128 : toBytesBE 128 1 = [128] := rfl
  rw [h128]
  simp

theorem parse_pad_flatten (M : List Nat) (hM : ∀ b ∈ M, b < 256)
    (hl : M.length * 8 < 2 ^ 64) :
    (parse_msg_blocks (pad_bytes M)).flatten = fipsPaddedMsg M := by
  have hk7 : klen (M.length * 8) % 8 = 7 := klen_mod8 _ (by omega)
  have hke : (M.length * 8 + 1 + klen (M.length * 8)) % 512 = 448 := klen_eq _
  have h8 := padMsgLen_mod8 M
  have hkz : klen (M.length * 8) = 8 * ((klen (M.length * 8) - 7) / 8) + 7 := by omega
  unfold parse_msg_blocks
  rw [fromBytesBE_pad_bytes M hM, parseLoop_flatten]
  have h512 : (2 : Nat) ^ (512 * ((pad_bytes M).length * 8 / 512))
      = 2 ^ (M.length * 8 + klen (M.length * 8) + 65) := by
    congr 1
    rw [pad_bytes_length]
    unfold padMsgLen at *
    omega
  have h64 : 64 * ((pad_bytes M).length * 8 / 512)
      = M.length + ((klen (M.length * 8) - 7) / 8 + 9) := by
    rw [pad_bytes_length]
    unfold padMsgLen at *
    omega
  rw [h512, h64, Nat.mod_eq_of_lt (padVal_lt M hM), padVal_eq M hl]
  unfold fipsPaddedMsg
  exact toBytesBE_pad_decomp M _ _ hM hl hkz

theorem parse_pad_length (M : List Nat) :
    (parse_msg_blocks (pad_bytes M)).length
      = (M.length * 8 + 1 + klen (M.length * 8) + 64) / 512 := by
  unfold parse_msg_blocks
  rw [parseLoop_length, pad_bytes_length]
  have h8 := padMsgLen_mod8 M
  have hke := klen_eq (M.length * 8)
  unfold padMsgLen at *
  omega

theorem parse_pad_blocks_length (M : List Nat) :
    ∀ blk ∈ parse_msg_blocks (pad_bytes M), blk.length = 64 := by
  unfold parse_msg_blocks
  exact parseLoop_blocks_length _ _

/-! ### Message-schedule lemmas -/

theorem schedRec_length (Mi : Nat) : ∀ t, (schedRec Mi t).length = t := by
  intro t
  induction t with
  | zero => rfl
  | succ t ih => simp [schedRec, ih]

theorem schedRec_succ (Mi t : Nat) :
    schedRec Mi (t + 1) = schedRec Mi t ++
      [if t < 16 then (Mi >>> ((15 - t) * 32)) &&& WORD_MASK
       else ((sigma_1 ((schedRec Mi t).getD (t - 2) 0) +
              ((schedRec Mi t).getD (t - 7) 0) % 2 ^ 32) +
             (sigma_0 ((schedRec Mi t).getD (t - 15) 0) +
              ((schedRec Mi t).getD (t - 16) 0) % 2 ^ 32)) % 2 ^ 32] := rfl

theorem schedRec_getD_stable (Mi : Nat) {t u : Nat} (h : t < u) :
    (schedRec Mi u).getD t 0 = (schedRec Mi (t + 1)).getD t 0 := by
  induction u with
  | zero => omega
  | succ u ih =>
    rcases Nat.lt_or_ge t u with hu | hu
    · rw [← ih hu, schedRec_succ, List.getD_eq_getElem?_getD,
        List.getElem?_append_left (by rw [schedRec_length]; exact hu),
        ← List.getD_eq_getElem?_getD]
    · have ht : t = u := by omega
      subst ht
      rfl

theorem schedRec_getD_eq_Wt (Mi : Nat) {s u : Nat} (hs : s < u) (hu : s < 64) :
    (schedRec Mi u).getD s 0 = Wt Mi s := by
  unfold Wt Wsched
  rw [schedRec_getD_stable Mi hs, ← schedRec_getD_stable Mi hu]

theorem Wt_unfold (Mi t : Nat) (h : t < 64) :
    Wt Mi t = if t < 16 then (Mi >>> ((15 - t) * 32)) &&& WORD_MASK
      else ((sigma_1 ((schedRec Mi t).getD (t - 2) 0) +
             ((schedRec Mi t).getD (t - 7) 0) % 2 ^ 32) +
            (sigma_0 ((schedRec Mi t).getD (t - 15) 0) +
             ((schedRec Mi t).getD (t - 16) 0) % 2 ^ 32)) % 2 ^ 32 := by
  show (Wsched Mi).getD t 0 = _
  unfold Wsched
  rw [schedRec_getD_stable Mi h, schedRec_succ, List.getD_eq_getElem?_getD,
    List.getElem?_append_right (by rw [schedRec_length])]
  simp [schedRec_length]

theorem Wt_init (Mi t : Nat) (h : t < 16) :
    Wt Mi t = (Mi >>> ((15 - t) * 32)) &&& WORD_MASK := by
  rw [Wt_unfold Mi t (by omega), if_pos h]

theorem Wt_recurrence (Mi t : Nat) (h16 : 16 ≤ t) (h64 : t < 64) :
    Wt Mi t = ((sigma_1 (Wt Mi (t - 2)) + (Wt Mi (t - 7)) % 2 ^ 32) +
               (sigma_0 (Wt Mi (t - 15)) + (Wt Mi (t - 16)) % 2 ^ 32)) % 2 ^ 32 := by
  rw [Wt_unfold Mi t h64, if_neg (by omega),
    schedRec_getD_eq_Wt Mi (by omega) (by omega), schedRec_getD_eq_Wt Mi (by omega) (by omega),
    schedRec_getD_eq_Wt Mi (by omega) (by omega), schedRec_getD_eq_Wt Mi (by omega) (by omega)]

theorem Wt_lt (Mi t : Nat) (h : t < 64) : Wt Mi t < 2 ^ 32 := by
  rcases Nat.lt_or_ge t 16 with h16 | h16
  · rw [Wt_init Mi t h16]
    have : (Mi >>> ((15 - t) * 32)) &&& WORD_MASK ≤ WORD_MASK := Nat.and_le_right
    have : WORD_MASK < 2 ^ 32 := by norm_num [WORD_MASK]
    omega
  · rw [Wt_recurrence Mi t h16 h]
    exact Nat.mod_lt _ (by positivity)

/-! ### Compressor, spec-side definitions -/

/-- Modelled from the spec §4.4, step 1: the working variables seeded from
the hash state, `(a,…,h) = (H[0],…,H[7])`. -/
def specRegsInit (H : List Nat) : Regs :=
  ⟨H.getD 0 0, H.getD 1 0, H.getD 2 0, H.getD 3 0,
   H.getD 4 0, H.getD 5 0, H.getD 6 0, H.getD 7 0⟩

/-- Modelled from the spec §4.4, step 2 (and claim C8): one round
`T1 = (h + Σ1(e) + Ch(e,f,g) + K[t] + W[t]) mod 2^32`,
`T2 = (Σ0(a) + Maj(a,b,c)) mod 2^32`, then the octet shift. -/
def specRound (Mi t : Nat) (s : Regs) : Regs :=
  let T1 := (s.h + big_sigma_1 s.e + ch s.e s.f s.g + K.getD t 0 + Wt Mi t) % 2 ^ 32
  let T2 := (big_sigma_0 s.a + maj s.a s.b s.c) % 2 ^ 32
  ⟨(T1 + T2) % 2 ^ 32, s.a, s.b, s.c, (s.d + T1) % 2 ^ 32, s.e, s.f, s.g⟩

/-- The working variables after `t` of the 64 rounds of the spec. -/
def specRegsAfter (H : List Nat) (Mi : Nat) : Nat → Regs
  | 0 => specRegsInit H
  | t + 1 => specRound Mi t (specRegsAfter H Mi t)

/-- Modelled from the spec §4.4, step 3: after 64 rounds,
`H[i] ← (H[i] + {a,…,h}[i]) mod 2^32`. -/
def specCompressBlock (H : List Nat) (Mi : Nat) : List Nat :=
  [(H.getD 0 0 + (specRegsAfter H Mi 64).a) % 2 ^ 32,
   (H.getD 1 0 + (specRegsAfter H Mi 64).b) % 2 ^ 32,
   (H.getD 2 0 + (specRegsAfter H Mi 64).c) % 2 ^ 32,
   (H.getD 3 0 + (specRegsAfter H Mi 64).d) % 2 ^ 32,
   (H.getD 4 0 + (specRegsAfter H Mi 64).e) % 2 ^ 32,
   (H.getD 5 0 + (specRegsAfter H Mi 64).f) % 2 ^ 32,
   (H.getD 6 0 + (specRegsAfter H Mi 64).g) % 2 ^ 32,
   (H.getD 7 0 + (specRegsAfter H Mi 64).h) % 2 ^ 32]

theorem regs_foldl (H : List Nat) (Mi : Nat) (n : Nat) :
    (List.range n).foldl (fun s t => roundStep (K.getD t 0) (Wt Mi t) s) (specRegsInit H)
      = specRegsAfter H Mi n := by
  induction n with
  | zero => rfl
  | succ n ih => rw [List.range_succ, List.foldl_append, ih]; rfl

/-! ### The padded empty message as the code actually produces it -/

/-- What `pad_message(b"")` returns: 48 leading zero bytes, then `0x80`,
then 63 zero bytes (the last 8 of which are the length field `l = 0`). -/
def padOfEmpty : List Nat := List.replicate 48 0 ++ 128 :: List.replicate 63 0

/-! ### Claim theorems -/

/-- C1: the claim says repeated invocations of `my_sha256` on the same
message yield the same digest.  The code violates this: `H = H0` on line
179 aliases the global list, so the first call mutates `H0` and a second
call in the same process starts from the mutated state and returns a
different digest.  This theorem evaluates both calls on the empty message:
the first digest differs from the second. -/
theorem my_sha256_repeat_differs :
    (my_sha256_run H0 []).map Prod.fst ≠
      ((my_sha256_run H0 []).bind fun r => my_sha256_run r.2 []).map Prod.fst := by decide

/-- C2: the claim says `K` and `H0` are never mutated by any pipeline
operation.  The code violates this for `H0`: after a single call of
`my_sha256` on the empty message the global `H0` no longer holds its
initial standardized values (it holds the final hash state). -/
theorem sha256_mutates_global_H0 :
    (my_sha256_run H0 []).map Prod.snd ≠ some H0 := by decide

/-- C3: the claim says the padded bit length is `l + 1 + k + 64` (for the
empty message `(0 + 1 + 447 + 64) / 8 = 64` bytes).  The code computes
`msglen = k + l + 1 + 448` on line 122, so `pad_message(b"")` returns 112
bytes = 896 bits, which is not even a multiple of 512. -/
theorem pad_message_empty_length :
    (pad_message []).map List.length = some 112 ∧ (0 + 1 + klen 0 + 64) / 8 = 64 := by decide

/-- C4: the claim says `pad_message M` is exactly the message bits, a `1`
bit, `k` zero bits and the 64-bit length, with no extra bits.  For the
empty message the code instead returns 384 extra leading zero bits (48 zero
bytes) before the `0x80` byte, so stripping the trailing fields leaves 384
zero bits rather than the empty message. -/
theorem pad_message_empty_value : pad_message [] = some padOfEmpty := by decide

/-- C5: the claim says the blocks of `parse_msg_blocks(pad_message M)`
concatenate back to `pad_message M` exactly.  For the empty message
`pad_message` returns 112 bytes but the parser keeps only `(896 / 512) = 1`
block of 64 bytes (the low-order 512 bits), so the concatenation of the
blocks is not the padded message (the 48 leading zero bytes are dropped). -/
theorem parse_blocks_do_not_cover :
    pad_message [] = some padOfEmpty ∧
    (parse_msg_blocks padOfEmpty).flatten ≠ padOfEmpty := by decide

/-- C6: on a fresh invocation (global `H0` still holding its initial
values), `my_sha256` maps the empty message and `b"abc"` to the two NIST
test-vector digests. -/
theorem my_sha256_known_vectors :
    my_sha256 [] = some 0xe3b0c44298fc1c149afbf4c8996fb92427ae41e4649b934ca495991b7852b855 ∧
    my_sha256 [0x61, 0x62, 0x63]
      = some 0xba7816bf8f01cfea414140de5dae2223b00361a396177a9cb410ff61f20015ad := by decide

/-- C7: the message schedule satisfies `W[t] =` the `t`-th big-endian
32-bit word of the block for `t < 16`, the recurrence
`W[t] = (σ1(W[t-2]) + W[t-7] + σ0(W[t-15]) + W[t-16]) mod 2^32` for
`16 ≤ t < 64`, and every `W[t]` is in `[0, 2^32)`. -/
theorem schedule_spec (Mi t : Nat) :
    (t < 16 → Wt Mi t = Mi / 2 ^ ((15 - t) * 32) % 2 ^ 32) ∧
    (16 ≤ t → t < 64 → Wt Mi t =
      (sigma_1 (Wt Mi (t - 2)) + Wt Mi (t - 7) + sigma_0 (Wt Mi (t - 15)) +
        Wt Mi (t - 16)) % 2 ^ 32) ∧
    (t < 64 → Wt Mi t < 2 ^ 32) := by
  refine ⟨?_, ?_, fun h => Wt_lt Mi t h⟩
  · intro h
    rw [Wt_init Mi t h, Nat.shiftRight_eq_div_pow,
      show WORD_MASK = 2 ^ 32 - 1 from by norm_num [WORD_MASK],
      Nat.and_pow_two_sub_one_eq_mod]
  · intro h16 h64
    rw [Wt_recurrence Mi t h16 h64,
      Nat.mod_eq_of_lt (Wt_lt Mi (t - 7) (by omega)),
      Nat.mod_eq_of_lt (Wt_lt Mi (t - 16) (by omega)), ← Nat.add_assoc]

/-- Witness for C7: the word extraction at `t = 0`, the recurrence at
`t = 16`, and the range bound, all at the concrete block value `Mi = 5`. -/
theorem schedule_spec_witness :
    ((0 : Nat) < 16 ∧ Wt 5 0 = 5 / 2 ^ ((15 - 0) * 32) % 2 ^ 32) ∧
    ((16 ≤ 16 ∧ 16 < 64) ∧
      Wt 5 16 = (sigma_1 (Wt 5 14) + Wt 5 9 + sigma_0 (Wt 5 1) + Wt 5 0) % 2 ^ 32) ∧
    (16 < 64 ∧ Wt 5 16 < 2 ^ 32) :=
  ⟨⟨by decide, (schedule_spec 5 0).1 (by decide)⟩,
   ⟨⟨by decide, by decide⟩, (schedule_spec 5 16).2.1 (by decide) (by decide)⟩,
   ⟨by decide, (schedule_spec 5 16).2.2 (by decide)⟩⟩

/-- C8: per block, the code's compression (`processBlock`, the inner loops
of `sha256_hash_computation`) equals the spec's: seed `(a,…,h)` from
`H[0..7]`, apply the 64 rounds `T1/T2` with the octet shift, then update
`H[i] ← (H[i] + {a,…,h}[i]) mod 2^32`. -/
theorem compressor_spec (H blk : List Nat) :
    processBlock H blk = specCompressBlock H (fromBytesBE blk) := by
  have h := regs_foldl H (fromBytesBE blk) 64
  simp only [specRegsInit] at h
  simp only [processBlock, specCompressBlock, h]
  simp [Nat.add_comm]

/-- C9 (counterexample): the claim says any message of bit length
`≥ 2^64` is rejected by the padder before any computation.  The code has
no such check: on a `2^61`-byte message of zeros (bit length exactly
`2^64`) `pad_message` succeeds and produces a padded message. -/
theorem pad_message_oversized_not_rejected :
    2 ^ 64 ≤ (List.replicate (2 ^ 61) 0).length * 8 ∧
    pad_message (List.replicate (2 ^ 61) 0) ≠ none := by
  have hv : ∀ b ∈ List.replicate (2 ^ 61) (0 : Nat), b < 256 := by
    intro b hb
    rw [List.eq_of_mem_replicate hb]
    norm_num
  refine ⟨?_, ?_⟩
  · rw [List.length_replicate]
    norm_num
  · intro hc
    rw [pad_message_eq _ hv] at hc
    exact Option.noConfusion hc

/-- C9 (amended): the padder performs no input-domain check and never
rejects: for every byte message, including those of bit length `≥ 2^64`,
`pad_message` returns a padded byte string of bit length
`l + 1 + k + 448`. -/
theorem pad_message_never_rejects (M : List Nat) (hM : ∀ b ∈ M, b < 256) :
    pad_message M = some (pad_bytes M) ∧
    (pad_bytes M).length * 8 = M.length * 8 + 1 + klen (M.length * 8) + 448 := by
  refine ⟨pad_message_eq M hM, ?_⟩
  rw [pad_bytes_length]
  have h8 := padMsgLen_mod8 M
  unfold padMsgLen at *
  omega

/-- Witness for C9 (amended), at the oversized message of `2^61` zero
bytes. -/
theorem pad_message_never_rejects_witness :
    (∀ b ∈ List.replicate (2 ^ 61) 0, b < 256) ∧
    (pad_message (List.replicate (2 ^ 61) 0) = some (pad_bytes (List.replicate (2 ^ 61) 0)) ∧
     (pad_bytes (List.replicate (2 ^ 61) 0)).length * 8
       = (List.replicate (2 ^ 61) 0).length * 8 + 1 +
           klen ((List.replicate (2 ^ 61) 0).length * 8) + 448) :=
  have hv : ∀ b ∈ List.replicate (2 ^ 61) (0 : Nat), b < 256 := fun b hb => by
    rw [List.eq_of_mem_replicate hb]
    norm_num
  ⟨hv, pad_message_never_rejects _ hv⟩

/-- C10: for every message of bit length `< 2^64`, `preprocess_msg`
succeeds and returns `(l + 1 + k + 64) / 512` blocks of exactly 64 bytes
each whose in-order concatenation is the FIPS 180-4 padded message — the
excess leading zero bytes produced by `pad_message` are discarded by
`parse_msg_blocks`, which keeps only the low-order `N·512` bits. -/
theorem preprocess_msg_fips (M : List Nat) (hM : ∀ b ∈ M, b < 256)
    (hl : M.length * 8 < 2 ^ 64) :
    preprocess_msg M = some (parse_msg_blocks (pad_bytes M)) ∧
    (parse_msg_blocks (pad_bytes M)).length
      = (M.length * 8 + 1 + klen (M.length * 8) + 64) / 512 ∧
    (∀ blk ∈ parse_msg_blocks (pad_bytes M), blk.length = 64) ∧
    (parse_msg_blocks (pad_bytes M)).flatten = fipsPaddedMsg M := by
  refine ⟨?_, parse_pad_length M, parse_pad_blocks_length M, parse_pad_flatten M hM hl⟩
  unfold preprocess_msg
  rw [pad_message_eq M hM]
  rfl

/-- Witness for C10, at the message `b"abc"`. -/
theorem preprocess_msg_fips_witness :
    ((∀ b ∈ ([97, 98, 99] : List Nat), b < 256) ∧
      ([97, 98, 99] : List Nat).length * 8 < 2 ^ 64) ∧
    (preprocess_msg [97, 98, 99] = some (parse_msg_blocks (pad_bytes [97, 98, 99])) ∧
     (parse_msg_blocks (pad_bytes [97, 98, 99])).length
       = (([97, 98, 99] : List Nat).length * 8 + 1 +
           klen (([97, 98, 99] : List Nat).length * 8) + 64) / 512 ∧
     (∀ blk ∈ parse_msg_blocks (pad_bytes [97, 98, 99]), blk.length = 64) ∧
     (parse_msg_blocks (pad_bytes [97, 98, 99])).flatten = fipsPaddedMsg [97, 98, 99]) :=
  ⟨⟨by decide, by decide⟩, preprocess_msg_fips [97, 98, 99] (by decide) (by decide)⟩

end Sha256
